import Mathlib

/-!
Verification of the Game-of-Life engine and its worker/proxy protocol.

The development shallowly embeds the sources:
* `life.model.ts` / `work.js` — the `Model` simulation engine,
* `work.js` — the `Signal` broadcast primitive and the worker message handlers,
* the main client file — the `ModelInWorker` proxy (buffering, `randomize`).

JavaScript numbers are modelled as `Int` (cell values, which are only ever
0 or 1, as `Nat`); the JS `%` operator is truncated remainder, i.e.
`Int.tmod`; `Int8Array` reads out of bounds yield `undefined` (modelled by
`Option`/defaults) and out-of-bounds writes are discarded (as `List.set`
does).
-/

namespace LifeSpec

/-- The `Changes` interface of `life.common.ts`: the delta of one
generation, fields in source declaration order (born, survived, died). -/
structure Changes where
  born : List Nat
  survived : List Nat
  died : List Nat
deriving DecidableEq

/-- The `Model` class state of `life.model.ts`: grid of cell values
(`Int8Array`, only 0/1 are ever stored), the cached live-cell index list
`alive`, and the board dimensions. -/
structure Model where
  cols : Nat
  rows : Nat
  grid : List Nat
  alive : List Nat
deriving DecidableEq

/-- `new Model(cols, rows)`: zero-filled grid, no live cells. -/
def Model.new (cols rows : Nat) : Model :=
  ⟨cols, rows, List.replicate (cols * rows) 0, []⟩

/-- `Model.indexFor(x, y)`: `((rows + y) % rows) * cols + ((cols + x) % cols)`
with the JS `%` (truncated remainder, `Int.tmod`). -/
def Model.indexFor (m : Model) (x y : Int) : Int :=
  (((m.rows : Int) + y).tmod m.rows) * m.cols + (((m.cols : Int) + x).tmod m.cols)

/-- `Model.size()`: the grid length. -/
def Model.size (m : Model) : Nat := m.grid.length

/-- Reading `grid[index]` for an arbitrary (possibly negative or
out-of-range) index: an in-range read yields the stored value, any other
read yields `undefined` (`none`). -/
def Model.gridVal (m : Model) (index : Int) : Option Nat :=
  if 0 ≤ index ∧ index < (m.grid.length : Int) then some (m.grid.getD index.toNat 0)
  else none

/-- `Model.get(index)`: `this.grid[index] > 0`; for an out-of-range index the
read is `undefined` and `undefined > 0` is `false`. A pure read: the model
state is not touched. -/
def Model.get (m : Model) (index : Int) : Bool :=
  match m.gridVal index with
  | some v => decide (0 < v)
  | none => false

/-- The JS coercion `v & 1` used by `init`: the low bit of the value. -/
def lowBit (v : Int) : Nat := (v % 2).toNat

/-- The `vals.forEach` loop body of `Model.init`, as a recursion carrying the
grid, the `alive` array being pushed to, and the running element index:
`grid[i] = v & 1` (out-of-range writes on an `Int8Array` are discarded,
as `List.set` does) and `alive.push(i)` when the bit is set. -/
def initGo : List Nat → List Nat → Nat → List Int → List Nat × List Nat
  | g, a, _, [] => (g, a)
  | g, a, i, v :: vs =>
    let val := lowBit v
    initGo (g.set i val) (if 0 < val then a ++ [i] else a) (i + 1) vs

/-- `Model.init(vals)`: runs the `forEach` loop over `vals` (note: it pushes
onto the existing `alive` array without clearing it), then returns — and
passes to `didChange.raise` — `{born: alive, died: [], survived: []}`
where `born` is the very `alive` array. -/
def Model.init (m : Model) (vals : List Int) : Changes × Model :=
  let ga := initGo m.grid m.alive 0 vals
  (⟨ga.2, [], []⟩, { m with grid := ga.1, alive := ga.2 })

/-- `Model.neighborsOf(index)`: decode `x = index % cols`,
`y = (index / cols) | 0`, and list the 8 wrapped neighbor indices in the
source's fixed order. The results are used as array indices (`Nat`). -/
def Model.neighborsOf (m : Model) (index : Nat) : List Nat :=
  let x : Int := (index % m.cols : Nat)
  let y : Int := (index / m.cols : Nat)
  [(m.indexFor (x - 1) (y - 1)).toNat,
   (m.indexFor x (y - 1)).toNat,
   (m.indexFor (x + 1) (y - 1)).toNat,
   (m.indexFor (x - 1) y).toNat,
   (m.indexFor (x + 1) y).toNat,
   (m.indexFor (x - 1) (y + 1)).toNat,
   (m.indexFor x (y + 1)).toNat,
   (m.indexFor (x + 1) (y + 1)).toNat]

/-- `Model.nextFor(index)`: sum the values of the 8 neighbors and apply the
rule: `count == 3 → 1`, `count == 2 → grid[index]`, otherwise `0`. -/
def Model.nextFor (m : Model) (index : Nat) : Nat :=
  let count := ((m.neighborsOf index).map (fun j => m.grid.getD j 0)).sum
  if count = 3 then 1
  else if count = 2 then m.grid.getD index 0
  else 0

/-- The push-if-not-included step of `Model.activeCells` (the `included`
marker array is exactly the membership of the `active` list being built,
since the source pushes and marks together). -/
def addIfNew (acc : List Nat) (i : Nat) : List Nat :=
  if i ∈ acc then acc else acc ++ [i]

/-- `Model.activeCells()`: every live cell followed by its 8 neighbors, in
order, skipping indices already collected. -/
def Model.activeCells (m : Model) : List Nat :=
  m.alive.foldl
    (fun acc index => (m.neighborsOf index).foldl addIfNew (addIfNew acc index))
    []

/-- One iteration of the classification loop in `Model.next`: push `index`
onto `alive` when the next state is live, onto `born`/`died` when the state
changed, onto `survived` when it stayed live.  The source's nested `if`s
are flattened into the four (mutually-exclusive) push conditions; the state
is `(alive, born, died, survived)`. -/
def Model.classifyStep (m : Model) (st : List Nat × List Nat × List Nat × List Nat)
    (index : Nat) : List Nat × List Nat × List Nat × List Nat :=
  let nxt := m.nextFor index
  let current := m.grid.getD index 0
  ((if 0 < nxt then st.1 ++ [index] else st.1),
   (if current ≠ nxt ∧ 0 < nxt then st.2.1 ++ [index] else st.2.1),
   (if current ≠ nxt ∧ nxt = 0 then st.2.2.1 ++ [index] else st.2.2.1),
   (if current = nxt ∧ 0 < nxt then st.2.2.2 ++ [index] else st.2.2.2))

/-- `Model.next()`: classify every active cell against the current grid,
then commit (write 1 at each `born` index, 0 at each `died` index, replace
`alive`), and return — and pass to `didChange.raise` — the change set. -/
def Model.next (m : Model) : Changes × Model :=
  let active := m.activeCells
  let st := active.foldl m.classifyStep ([], [], [], [])
  let grid1 := st.2.1.foldl (fun g i => g.set i 1) m.grid
  let grid2 := st.2.2.1.foldl (fun g i => g.set i 0) grid1
  (⟨st.2.1, st.2.2.2, st.2.2.1⟩, { m with grid := grid2, alive := st.1 })

/-- The live-in-next-generation test of the classification loop. -/
def Model.liveB (m : Model) (i : Nat) : Bool := decide (0 < m.nextFor i)

/-- The `born` test of the classification loop: state changed and alive. -/
def Model.bornB (m : Model) (i : Nat) : Bool :=
  decide (m.grid.getD i 0 ≠ m.nextFor i) && m.liveB i

/-- The `died` test of the classification loop: state changed and dead. -/
def Model.diedB (m : Model) (i : Nat) : Bool :=
  decide (m.grid.getD i 0 ≠ m.nextFor i) && decide (m.nextFor i = 0)

/-- The `survived` test of the classification loop: unchanged and alive. -/
def Model.survB (m : Model) (i : Nat) : Bool :=
  decide (m.grid.getD i 0 = m.nextFor i) && m.liveB i

/-- The claim's specification of one synchronous Conway step, written from
the spec's words: for every cell of the grid, the sum of its 8 toroidal
neighbors decides the next state — 3 → alive, 2 → unchanged, else dead. -/
def conwaySync (m : Model) : List Nat :=
  (List.range m.grid.length).map fun i =>
    let s := ((m.neighborsOf i).map (fun j => m.grid.getD j 0)).sum
    if s = 3 then 1 else if s = 2 then m.grid.getD i 0 else 0

/-- The well-formedness a reachable engine state always has: positive
dimensions, grid of size `cols * rows`, live indices in range. -/
def Model.WF (m : Model) : Prop :=
  0 < m.cols ∧ 0 < m.rows ∧ m.grid.length = m.cols * m.rows ∧
    ∀ a ∈ m.alive, a < m.grid.length

instance (m : Model) : Decidable m.WF := by
  unfold Model.WF; infer_instance

/-- The wrapped index at offset `(dx, dy)` from cell `i` — the common shape
of the eight entries produced by `Model.neighborsOf`. -/
def nbr (m : Model) (i : Nat) (dx dy : Int) : Nat :=
  (m.indexFor ((i % m.cols : Nat) + dx) ((i / m.cols : Nat) + dy)).toNat

/-- The `needSome` handler loop of `work.js`: call `model.next()` exactly
`n` times, collecting the change sets in generation order; all of them are
sent back in one `HereSome` response. -/
def needSome (m : Model) (n : Nat) : List Changes × Model :=
  match n with
  | 0 => ([], m)
  | k + 1 =>
    let cm := m.next
    let rest := needSome cm.2 k
    (cm.1 :: rest.1, rest.2)

end LifeSpec

namespace LifeSpec

/-! ### The `Signal` class of `work.js`

JS arrays are mutable objects, so the embedding gives `Signal` a small
heap of arrays (`heap`, addressed by allocation index) and the field
`this.listeners` is the address `cur`.  `tap`/`untap` copy
(`slice(0)`) before modifying, i.e. they allocate a fresh array and
repoint `cur`; `raise` iterates over the array object `cur` pointed to
when the iteration started. -/

/-- A mutation of the signal performed by a listener during dispatch. -/
inductive SigOp (L : Type) where
  | tap (l : L)
  | untap (l : L)

/-- The listener storage of one `Signal`: the array heap and the address
currently held by `this.listeners`. -/
structure SignalH (L : Type) where
  heap : List (List L)
  cur : Nat

/-- `new Signal`: one empty listeners array. -/
def SignalH.new (L : Type) : SignalH L := ⟨[[]], 0⟩

/-- `Signal.tap(l)`: `this.listeners = this.listeners.slice(0)` (a fresh
copy) followed by `push(l)` on the copy. -/
def SignalH.tap [DecidableEq L] (s : SignalH L) (l : L) : SignalH L :=
  let arr := s.heap.getD s.cur []
  ⟨s.heap ++ [arr ++ [l]], s.heap.length⟩

/-- `Signal.untap(l)`: look up `indexOf(l)`; when absent (`-1`) do nothing,
otherwise copy the array and `splice` the found position out. -/
def SignalH.untap [DecidableEq L] (s : SignalH L) (l : L) : SignalH L :=
  let arr := s.heap.getD s.cur []
  match arr.indexOf? l with
  | none => s
  | some ix => ⟨s.heap ++ [arr.eraseIdx ix], s.heap.length⟩

/-- Apply one listener-initiated mutation. -/
def SignalH.applyOp [DecidableEq L] (s : SignalH L) : SigOp L → SignalH L
  | SigOp.tap l => s.tap l
  | SigOp.untap l => s.untap l

/-- Apply a listener's mutations in order. -/
def SignalH.applyOps [DecidableEq L] (s : SignalH L) (ops : List (SigOp L)) : SignalH L :=
  ops.foldl SignalH.applyOp s

/-- The `forEach` of `Signal.raise` over the array object at address `a0`:
`forEach` fixes the iteration count from the array's length at the start
(`rem` counts the remaining iterations) and reads `arr[i]` afresh from the
heap at every step; each invoked listener `l` receives the raise arguments
`args` and performs its mutations `eff l args` on the signal.  Returns the
invocation log (listener, arguments received) and the final state. -/
def raiseGo [DecidableEq L] (eff : L → A → List (SigOp L)) (args : A) (a0 : Nat) :
    Nat → Nat → SignalH L → List (L × A) × SignalH L
  | _, 0, s => ([], s)
  | i, rem + 1, s =>
    let arr := s.heap.getD a0 []
    if h : i < arr.length then
      let l := arr.get ⟨i, h⟩
      let s1 := s.applyOps (eff l args)
      let rest := raiseGo eff args a0 (i + 1) rem s1
      ((l, args) :: rest.1, rest.2)
    else
      raiseGo eff args a0 (i + 1) rem s

/-- `Signal.raise(...args)`: iterate over the current listeners array,
invoking each listener with the raise arguments. -/
def SignalH.raise [DecidableEq L] (s : SignalH L) (eff : L → A → List (SigOp L))
    (args : A) : List (L × A) × SignalH L :=
  raiseGo eff args s.cur 0 (s.heap.getD s.cur []).length s

end LifeSpec

namespace LifeSpec

/-! ### The `ModelInWorker` client proxy -/

/-- A message posted to the worker: `InitLife` or `NeedSome`. -/
inductive WMsg where
  | initLife (cols rows : Nat) (values : List Int)
  | needSome (n : Nat)
deriving DecidableEq

/-- The observable state of a `ModelInWorker`: the buffered change sets,
the last dispatched change set, the pending-pull counter, plus the log of
messages posted to the worker and of change sets raised on `didChange`.
The class has no epoch or configuration-generation field. -/
structure Proxy where
  cols : Nat
  rows : Nat
  changes : List Changes
  lastChange : Changes
  pendingRequests : Nat
  posted : List WMsg
  raised : List Changes
deriving DecidableEq

/-- The private `init` method: post `InitLife` and immediately a
`NeedSome{n: 20}` prefetch. -/
def Proxy.initReq (p : Proxy) (values : List Int) : Proxy :=
  { p with posted := p.posted ++ [WMsg.initLife p.cols p.rows values, WMsg.needSome 20] }

/-- The `ModelInWorker` constructor: fresh buffer, empty `lastChange`, no
pending requests, then `init(values)`. -/
def Proxy.create (cols rows : Nat) (values : List Int) : Proxy :=
  Proxy.initReq ⟨cols, rows, [], ⟨[], [], []⟩, 0, [], []⟩ values

/-- The `worker.onmessage` handler receiving a `HereSome` batch: each
delivered change set satisfies a pending pull (raised immediately) while
any remain, and is pushed onto the buffer otherwise.  The handler never
looks at which configuration the batch was computed for. -/
def Proxy.onHereSome (p : Proxy) (batch : List Changes) : Proxy :=
  batch.foldl
    (fun p c =>
      if 0 < p.pendingRequests then
        { p with raised := p.raised ++ [c], pendingRequests := p.pendingRequests - 1 }
      else
        { p with changes := p.changes ++ [c] })
    p

/-- `ModelInWorker.next()`: empty buffer registers a pending pull;
otherwise the head is dispatched and a `NeedSome{20}` refill is posted
when at most 2 buffered change sets remain. -/
def Proxy.next (p : Proxy) : Proxy :=
  match p.changes with
  | [] => { p with pendingRequests := p.pendingRequests + 1 }
  | c :: rest =>
    let p1 := { p with changes := rest, lastChange := c, raised := p.raised ++ [c] }
    if rest.length ≤ 2 then { p1 with posted := p1.posted ++ [WMsg.needSome 20] } else p1

/-- `ModelInWorker.randomize()`: synthesize a wipe change set that kills
everything shown alive (`died = lastChange.born ++ lastChange.survived`),
replace the whole buffer with just it, and re-run `init`.  The freshly
generated random configuration (`Math.random`, an external collaborator)
is abstracted as the `values` argument. -/
def Proxy.randomize (p : Proxy) (values : List Int) : Proxy :=
  let died := p.lastChange.born ++ p.lastChange.survived
  Proxy.initReq { p with changes := [⟨[], [], died⟩] } values

end LifeSpec

namespace LifeSpec

/-! ## Toroidal indexing -/

/-- On arguments no smaller than `-cols` / `-rows` the JS truncated
remainder in `indexFor` coincides with the mathematical modulus. -/
theorem indexFor_eq_emod (m : Model) (hc : 0 < m.cols) (hr : 0 < m.rows)
    {x y : Int} (hx : -(m.cols : Int) ≤ x) (hy : -(m.rows : Int) ≤ y) :
    m.indexFor x y = (y % (m.rows : Int)) * m.cols + x % (m.cols : Int) := by
  unfold Model.indexFor
  rw [Int.tmod_eq_emod (by omega) (by omega), Int.tmod_eq_emod (by omega) (by omega)]
  have h1 : ((m.rows : Int) + y) = y + (m.rows : Int) * 1 := by ring
  have h2 : ((m.cols : Int) + x) = x + (m.cols : Int) * 1 := by ring
  rw [h1, h2, Int.add_mul_emod_self_left, Int.add_mul_emod_self_left]

theorem indexFor_nonneg (m : Model) (hc : 0 < m.cols) (hr : 0 < m.rows)
    {x y : Int} (hx : -(m.cols : Int) ≤ x) (hy : -(m.rows : Int) ≤ y) :
    0 ≤ m.indexFor x y := by
  rw [indexFor_eq_emod m hc hr hx hy]
  have hy0 : 0 ≤ y % (m.rows : Int) := Int.emod_nonneg y (by omega)
  have hx0 : 0 ≤ x % (m.cols : Int) := Int.emod_nonneg x (by omega)
  have : 0 ≤ y % (m.rows : Int) * m.cols := by positivity
  omega

theorem indexFor_lt (m : Model) (hc : 0 < m.cols) (hr : 0 < m.rows)
    {x y : Int} (hx : -(m.cols : Int) ≤ x) (hy : -(m.rows : Int) ≤ y) :
    m.indexFor x y < (m.cols : Int) * m.rows := by
  rw [indexFor_eq_emod m hc hr hx hy]
  have hy1 : y % (m.rows : Int) < m.rows := Int.emod_lt_of_pos y (by omega)
  have hy0 : 0 ≤ y % (m.rows : Int) := Int.emod_nonneg y (by omega)
  have hx1 : x % (m.cols : Int) < m.cols := Int.emod_lt_of_pos x (by omega)
  have hmul : y % (m.rows : Int) * m.cols ≤ ((m.rows : Int) - 1) * m.cols := by
    have := Int.mul_le_mul_of_nonneg_right (by omega : y % (m.rows : Int) ≤ (m.rows : Int) - 1)
      (by omega : (0 : Int) ≤ m.cols)
    exact this
  have hexp : ((m.rows : Int) - 1) * m.cols = (m.rows : Int) * m.cols - m.cols := by ring
  have hcomm : (m.rows : Int) * m.cols = (m.cols : Int) * m.rows := by ring
  omega

/-- The `Nat`-level decomposition of a wrapped index. -/
theorem indexFor_toNat (m : Model) (hc : 0 < m.cols) (hr : 0 < m.rows)
    {x y : Int} (hx : -(m.cols : Int) ≤ x) (hy : -(m.rows : Int) ≤ y) :
    (m.indexFor x y).toNat = (y % (m.rows : Int)).toNat * m.cols + (x % (m.cols : Int)).toNat := by
  have hy0 : 0 ≤ y % (m.rows : Int) := Int.emod_nonneg y (by omega)
  have hx0 : 0 ≤ x % (m.cols : Int) := Int.emod_nonneg x (by omega)
  have hcast : (((y % (m.rows : Int)).toNat * m.cols + (x % (m.cols : Int)).toNat : Nat) : Int)
      = (y % (m.rows : Int)) * m.cols + x % (m.cols : Int) := by
    push_cast [Int.toNat_of_nonneg hy0, Int.toNat_of_nonneg hx0]
    ring
  rw [indexFor_eq_emod m hc hr hx hy, ← hcast, Int.toNat_natCast]

/-- C5 counterexample input: on a 3×3 board, `indexFor(0, -4)` evaluates to
`-3`: the toroidal identities and the range clause both fail once the `y`
argument drops below `-rows`, because the JS `%` is a truncated remainder. -/
theorem indexFor_js_remainder_counterexample :
    (Model.new 3 3).indexFor 0 (-4) = -3 ∧
      (Model.new 3 3).indexFor 0 (-4) ≠ (Model.new 3 3).indexFor 0 (-4 + 3) ∧
      (Model.new 3 3).indexFor 0 (-4) < 0 := by
  refine ⟨by decide, by decide, by decide⟩

/-- C5 (amended): for positive dimensions and arguments bounded below by
`-cols` / `-rows` (the only arguments the engine itself ever passes),
`indexFor` is periodic in both axes and lands in `[0, cols*rows)`. -/
theorem indexFor_toroidal (m : Model) (hc : 0 < m.cols) (hr : 0 < m.rows)
    (x y : Int) (hx : -(m.cols : Int) ≤ x) (hy : -(m.rows : Int) ≤ y) :
    m.indexFor x y = m.indexFor (x + m.cols) y ∧
      m.indexFor x y = m.indexFor x (y + m.rows) ∧
      0 ≤ m.indexFor x y ∧ m.indexFor x y < (m.cols : Int) * m.rows := by
  refine ⟨?_, ?_, indexFor_nonneg m hc hr hx hy, indexFor_lt m hc hr hx hy⟩
  · rw [indexFor_eq_emod m hc hr hx hy,
      @indexFor_eq_emod m hc hr (x + m.cols) y (by omega) hy]
    have : (x + (m.cols : Int)) = x + (m.cols : Int) * 1 := by ring
    rw [this, Int.add_mul_emod_self_left]
  · rw [indexFor_eq_emod m hc hr hx hy,
      @indexFor_eq_emod m hc hr x (y + m.rows) hx (by omega)]
    have : (y + (m.rows : Int)) = y + (m.rows : Int) * 1 := by ring
    rw [this, Int.add_mul_emod_self_left]

/-- Witness for the amended C5 theorem at a concrete input. -/
theorem indexFor_toroidal_witness :
    (Model.new 3 3).indexFor (-1) (-1) = (Model.new 3 3).indexFor (-1 + 3) (-1) ∧
      (Model.new 3 3).indexFor (-1) (-1) = (Model.new 3 3).indexFor (-1) (-1 + 3) ∧
      0 ≤ (Model.new 3 3).indexFor (-1) (-1) ∧
      (Model.new 3 3).indexFor (-1) (-1) < ((Model.new 3 3).cols : Int) * (Model.new 3 3).rows :=
  indexFor_toroidal (Model.new 3 3) (by decide) (by decide) (-1) (-1) (by decide) (by decide)

end LifeSpec

namespace LifeSpec

/-! ## Neighborhoods -/

theorem emod_sub_cancel (a b n : Int) : (a % n - b) % n = (a - b) % n := by
  conv_lhs => rw [Int.sub_emod]
  conv_rhs => rw [Int.sub_emod]
  rw [Int.emod_emod_of_dvd a dvd_rfl]

theorem indexFor_toNat_lt (m : Model) (hc : 0 < m.cols) (hr : 0 < m.rows)
    {x y : Int} (hx : -(m.cols : Int) ≤ x) (hy : -(m.rows : Int) ≤ y) :
    (m.indexFor x y).toNat < m.cols * m.rows := by
  have h0 := indexFor_nonneg m hc hr hx hy
  have h1 := indexFor_lt m hc hr hx hy
  have hcast : ((m.cols * m.rows : Nat) : Int) = (m.cols : Int) * m.rows := by push_cast; ring
  omega

/-- The eight neighbor entries, rewritten through `nbr`. -/
theorem neighborsOf_eq_nbr (m : Model) (i : Nat) :
    m.neighborsOf i =
      [nbr m i (-1) (-1), nbr m i 0 (-1), nbr m i 1 (-1), nbr m i (-1) 0,
       nbr m i 1 0, nbr m i (-1) 1, nbr m i 0 1, nbr m i 1 1] := by
  simp [Model.neighborsOf, nbr, sub_eq_add_neg]


theorem nbr_lt (m : Model) (hc : 0 < m.cols) (hr : 0 < m.rows)
    (i : Nat) {dx dy : Int} (hdx1 : -1 ≤ dx) (hdx2 : dx ≤ 1)
    (hdy1 : -1 ≤ dy) (hdy2 : dy ≤ 1) :
    nbr m i dx dy < m.cols * m.rows := by
  have h1 : (0 : Int) ≤ ((i % m.cols : Nat) : Int) := Int.natCast_nonneg _
  have h2 : (0 : Int) ≤ ((i / m.cols : Nat) : Int) := Int.natCast_nonneg _
  exact indexFor_toNat_lt m hc hr (by omega) (by omega)

/-- Every neighbor index is a valid grid index. -/
theorem mem_neighborsOf_lt (m : Model) (hc : 0 < m.cols) (hr : 0 < m.rows)
    (i : Nat) : ∀ j ∈ m.neighborsOf i, j < m.cols * m.rows := by
  intro j hj
  rw [neighborsOf_eq_nbr] at hj
  simp only [List.mem_cons, List.not_mem_nil, or_false] at hj
  rcases hj with h | h | h | h | h | h | h | h <;> subst h <;>
    exact nbr_lt m hc hr i (by omega) (by omega) (by omega) (by omega)

theorem decode_mod {n r c : Nat} (hclt : c < n) : (r * n + c) % n = c := by
  rw [Nat.mul_comm, Nat.mul_add_mod, Nat.mod_eq_of_lt hclt]

theorem decode_div {n r c : Nat} (hn : 0 < n) (hclt : c < n) : (r * n + c) / n = r := by
  rw [Nat.mul_comm, Nat.mul_add_div hn, Nat.div_eq_of_lt hclt, Nat.add_zero]

/-- `nbr` at a decomposed index, expressed through wrapped coordinates. -/
theorem nbr_core (m : Model) (hc : 0 < m.cols) (hr : 0 < m.rows)
    (xi yi : Nat) (hxi : xi < m.cols) (dx dy : Int)
    (hdx1 : -1 ≤ dx) (hdy1 : -1 ≤ dy) :
    nbr m (yi * m.cols + xi) dx dy
      = (((yi : Int) + dy) % (m.rows : Int)).toNat * m.cols
        + (((xi : Int) + dx) % (m.cols : Int)).toNat := by
  show (m.indexFor (((yi * m.cols + xi) % m.cols : Nat) + dx)
      (((yi * m.cols + xi) / m.cols : Nat) + dy)).toNat = _
  rw [decode_mod hxi, decode_div hc hxi]
  exact indexFor_toNat m hc hr (by omega) (by omega)

/-- Stepping to a neighbor and back with the mirrored offset returns to the
original (valid) cell. -/
theorem nbr_inv (m : Model) (hc : 0 < m.cols) (hr : 0 < m.rows)
    {i : Nat} (hi : i < m.cols * m.rows) {dx dy : Int}
    (hdx1 : -1 ≤ dx) (hdx2 : dx ≤ 1) (hdy1 : -1 ≤ dy) (hdy2 : dy ≤ 1) :
    nbr m (nbr m i dx dy) (-dx) (-dy) = i := by
  have hxi : i % m.cols < m.cols := Nat.mod_lt i hc
  have hyi : i / m.cols < m.rows := by
    have h2 : i < m.rows * m.cols := by rw [Nat.mul_comm]; exact hi
    exact (Nat.div_lt_iff_lt_mul hc).2 h2
  have hdm : i = i / m.cols * m.cols + i % m.cols := by
    rw [Nat.mul_comm]
    exact (Nat.div_add_mod i m.cols).symm
  have hC0 : (0 : Int) ≤ (((i % m.cols : Nat) : Int) + dx) % (m.cols : Int) :=
    Int.emod_nonneg _ (by omega)
  have hC1 : (((i % m.cols : Nat) : Int) + dx) % (m.cols : Int) < (m.cols : Int) :=
    Int.emod_lt_of_pos _ (by omega)
  have hR0 : (0 : Int) ≤ (((i / m.cols : Nat) : Int) + dy) % (m.rows : Int) :=
    Int.emod_nonneg _ (by omega)
  have hCnat : ((((i % m.cols : Nat) : Int) + dx) % (m.cols : Int)).toNat < m.cols :=
    (Int.toNat_lt hC0).2 hC1
  conv_lhs => rw [hdm]
  rw [nbr_core m hc hr (i % m.cols) (i / m.cols) hxi dx dy hdx1 hdy1]
  rw [nbr_core m hc hr ((((i % m.cols : Nat) : Int) + dx) % (m.cols : Int)).toNat
      ((((i / m.cols : Nat) : Int) + dy) % (m.rows : Int)).toNat hCnat (-dx) (-dy)
      (by omega) (by omega)]
  rw [Int.toNat_of_nonneg hC0, Int.toNat_of_nonneg hR0]
  have ex : (((i % m.cols : Nat) : Int) + dx) % (m.cols : Int) + -dx
      = (((i % m.cols : Nat) : Int) + dx) % (m.cols : Int) - dx := by ring
  have ey : (((i / m.cols : Nat) : Int) + dy) % (m.rows : Int) + -dy
      = (((i / m.cols : Nat) : Int) + dy) % (m.rows : Int) - dy := by ring
  rw [ex, ey, emod_sub_cancel, emod_sub_cancel]
  have fx : ((i % m.cols : Nat) : Int) + dx - dx = ((i % m.cols : Nat) : Int) := by ring
  have fy : ((i / m.cols : Nat) : Int) + dy - dy = ((i / m.cols : Nat) : Int) := by ring
  rw [fx, fy, Int.emod_eq_of_lt (Int.natCast_nonneg _) (by exact_mod_cast hyi),
    Int.emod_eq_of_lt (Int.natCast_nonneg _) (by exact_mod_cast hxi),
    Int.toNat_natCast, Int.toNat_natCast]
  exact hdm.symm

/-- Toroidal neighborhood symmetry: on a positive-size board, if `j` is a
neighbor of a valid cell `i` then `i` is a neighbor of `j`. -/
theorem mem_neighborsOf_symm (m : Model) (hc : 0 < m.cols) (hr : 0 < m.rows)
    {i j : Nat} (hi : i < m.cols * m.rows) (h : j ∈ m.neighborsOf i) :
    i ∈ m.neighborsOf j := by
  rw [neighborsOf_eq_nbr] at h ⊢
  simp only [List.mem_cons, List.not_mem_nil, or_false] at h ⊢
  rcases h with h | h | h | h | h | h | h | h <;> subst h
  · have hv := @nbr_inv m hc hr i hi (-1) (-1)
      (by norm_num) (by norm_num) (by norm_num) (by norm_num)
    simp only [neg_neg] at hv
    exact Or.inr (Or.inr (Or.inr (Or.inr (Or.inr (Or.inr (Or.inr hv.symm))))))
  · have hv := @nbr_inv m hc hr i hi 0 (-1)
      (by norm_num) (by norm_num) (by norm_num) (by norm_num)
    simp only [neg_neg, neg_zero] at hv
    exact Or.inr (Or.inr (Or.inr (Or.inr (Or.inr (Or.inr (Or.inl hv.symm))))))
  · have hv := @nbr_inv m hc hr i hi 1 (-1)
      (by norm_num) (by norm_num) (by norm_num) (by norm_num)
    simp only [neg_neg] at hv
    exact Or.inr (Or.inr (Or.inr (Or.inr (Or.inr (Or.inl hv.symm)))))
  · have hv := @nbr_inv m hc hr i hi (-1) 0
      (by norm_num) (by norm_num) (by norm_num) (by norm_num)
    simp only [neg_neg, neg_zero] at hv
    exact Or.inr (Or.inr (Or.inr (Or.inr (Or.inl hv.symm))))
  · have hv := @nbr_inv m hc hr i hi 1 0
      (by norm_num) (by norm_num) (by norm_num) (by norm_num)
    simp only [neg_zero] at hv
    exact Or.inr (Or.inr (Or.inr (Or.inl hv.symm)))
  · have hv := @nbr_inv m hc hr i hi (-1) 1
      (by norm_num) (by norm_num) (by norm_num) (by norm_num)
    simp only [neg_neg] at hv
    exact Or.inr (Or.inr (Or.inl hv.symm))
  · have hv := @nbr_inv m hc hr i hi 0 1
      (by norm_num) (by norm_num) (by norm_num) (by norm_num)
    simp only [neg_zero] at hv
    exact Or.inr (Or.inl hv.symm)
  · have hv := @nbr_inv m hc hr i hi 1 1
      (by norm_num) (by norm_num) (by norm_num) (by norm_num)
    exact Or.inl hv.symm

end LifeSpec

namespace LifeSpec

/-! ## The active region -/

theorem mem_addIfNew (acc : List Nat) (i j : Nat) :
    j ∈ addIfNew acc i ↔ j ∈ acc ∨ j = i := by
  unfold addIfNew
  by_cases h : i ∈ acc
  · simp only [if_pos h]
    constructor
    · exact Or.inl
    · rintro (hj | rfl)
      · exact hj
      · exact h
  · simp [if_neg h]

theorem nodup_addIfNew (acc : List Nat) (i : Nat) (h : acc.Nodup) :
    (addIfNew acc i).Nodup := by
  unfold addIfNew
  by_cases hi : i ∈ acc
  · simpa [if_pos hi]
  · rw [if_neg hi, List.nodup_append]
    refine ⟨h, List.nodup_singleton i, ?_⟩
    intro a ha hb
    rw [List.mem_singleton] at hb
    subst hb
    exact hi ha

theorem mem_foldl_addIfNew (N : List Nat) : ∀ (acc : List Nat) (j : Nat),
    j ∈ N.foldl addIfNew acc ↔ j ∈ acc ∨ j ∈ N := by
  induction N with
  | nil => simp
  | cons n N ih =>
    intro acc j
    simp only [List.foldl_cons, ih, mem_addIfNew, List.mem_cons]
    constructor
    · rintro ((hj | rfl) | hN)
      · exact Or.inl hj
      · exact Or.inr (Or.inl rfl)
      · exact Or.inr (Or.inr hN)
    · rintro (hj | rfl | hN)
      · exact Or.inl (Or.inl hj)
      · exact Or.inl (Or.inr rfl)
      · exact Or.inr hN

theorem nodup_foldl_addIfNew (N : List Nat) : ∀ acc : List Nat,
    acc.Nodup → (N.foldl addIfNew acc).Nodup := by
  induction N with
  | nil => exact fun acc h => h
  | cons n N ih =>
    intro acc h
    exact ih _ (nodup_addIfNew acc n h)

theorem mem_activeAux (m : Model) (L : List Nat) : ∀ (acc : List Nat) (j : Nat),
    j ∈ L.foldl (fun acc index => (m.neighborsOf index).foldl addIfNew (addIfNew acc index)) acc
      ↔ j ∈ acc ∨ ∃ a ∈ L, j = a ∨ j ∈ m.neighborsOf a := by
  induction L with
  | nil => simp
  | cons x L ih =>
    intro acc j
    simp only [List.foldl_cons, ih, mem_foldl_addIfNew, mem_addIfNew, List.mem_cons]
    constructor
    · rintro (((hj | rfl) | hn) | ⟨a, ha, hja⟩)
      · exact Or.inl hj
      · exact Or.inr ⟨j, Or.inl rfl, Or.inl rfl⟩
      · exact Or.inr ⟨x, Or.inl rfl, Or.inr hn⟩
      · exact Or.inr ⟨a, Or.inr ha, hja⟩
    · rintro (hj | ⟨a, (rfl | ha), hja⟩)
      · exact Or.inl (Or.inl (Or.inl hj))
      · rcases hja with rfl | hn
        · exact Or.inl (Or.inl (Or.inr rfl))
        · exact Or.inl (Or.inr hn)
      · exact Or.inr ⟨a, ha, hja⟩

/-- Membership in the computed active region: exactly the live cells and
their neighbors. -/
theorem mem_activeCells (m : Model) (j : Nat) :
    j ∈ m.activeCells ↔ j ∈ m.alive ∨ ∃ a ∈ m.alive, j ∈ m.neighborsOf a := by
  unfold Model.activeCells
  rw [mem_activeAux]
  simp only [List.not_mem_nil, false_or]
  constructor
  · rintro ⟨a, ha, rfl | hj⟩
    · exact Or.inl ha
    · exact Or.inr ⟨a, ha, hj⟩
  · rintro (hj | ⟨a, ha, hj⟩)
    · exact ⟨j, hj, Or.inl rfl⟩
    · exact ⟨a, ha, Or.inr hj⟩

theorem nodup_activeAux (m : Model) (L : List Nat) : ∀ acc : List Nat, acc.Nodup →
    (L.foldl (fun acc index => (m.neighborsOf index).foldl addIfNew (addIfNew acc index))
      acc).Nodup := by
  induction L with
  | nil => exact fun _ h => h
  | cons x L ih =>
    intro acc h
    simp only [List.foldl_cons]
    apply ih
    apply nodup_foldl_addIfNew
    exact nodup_addIfNew acc x h

/-- The active region contains no duplicate indices. -/
theorem nodup_activeCells (m : Model) : m.activeCells.Nodup :=
  nodup_activeAux m m.alive [] List.nodup_nil

end LifeSpec

namespace LifeSpec

/-! ## The classification loop of `next` -/

theorem classify_foldl (m : Model) (L : List Nat) : ∀ a b d s : List Nat,
    L.foldl m.classifyStep (a, b, d, s)
      = (a ++ L.filter m.liveB, b ++ L.filter m.bornB, d ++ L.filter m.diedB,
         s ++ L.filter m.survB) := by
  induction L with
  | nil => simp
  | cons x L ih =>
    intro a b d s
    simp only [List.foldl_cons, Model.classifyStep, ih, List.filter_cons]
    by_cases h1 : 0 < m.nextFor x <;> by_cases h2 : m.grid.getD x 0 = m.nextFor x
    · have h3 : ¬ m.nextFor x = 0 := by omega
      rw [List.getD_eq_getElem?_getD] at h2
      simp [Model.liveB, Model.bornB, Model.diedB, Model.survB, h1, h2, h3]
    · have h3 : ¬ m.nextFor x = 0 := by omega
      rw [List.getD_eq_getElem?_getD] at h2
      simp [Model.liveB, Model.bornB, Model.diedB, Model.survB, h1, h2, h3]
    · have h3 : m.nextFor x = 0 := by omega
      rw [List.getD_eq_getElem?_getD, h3] at h2
      simp [Model.liveB, Model.bornB, Model.diedB, Model.survB, h1, h2, h3]
    · have h3 : m.nextFor x = 0 := by omega
      rw [List.getD_eq_getElem?_getD, h3] at h2
      simp [Model.liveB, Model.bornB, Model.diedB, Model.survB, h1, h2, h3]

/-- The four output sequences of `Model.next`, as filters of the active
region, plus the dimensions being untouched. -/
theorem next_fields (m : Model) :
    (m.next).1.born = m.activeCells.filter m.bornB ∧
      (m.next).1.died = m.activeCells.filter m.diedB ∧
      (m.next).1.survived = m.activeCells.filter m.survB ∧
      (m.next).2.alive = m.activeCells.filter m.liveB ∧
      (m.next).2.cols = m.cols ∧ (m.next).2.rows = m.rows ∧
      (m.next).2.grid
        = (m.activeCells.filter m.diedB).foldl (fun g i => g.set i 0)
            ((m.activeCells.filter m.bornB).foldl (fun g i => g.set i 1) m.grid) := by
  simp only [Model.next]
  rw [classify_foldl]
  simp

theorem getD_set_eq (g : List Nat) (i j v : Nat) :
    (g.set i v).getD j 0 = if i = j ∧ i < g.length then v else g.getD j 0 := by
  rw [List.getD_eq_getElem?_getD, List.getD_eq_getElem?_getD, List.getElem?_set]
  by_cases h : i = j
  · subst h
    by_cases h2 : i < g.length
    · simp [h2]
    · rw [List.getElem?_eq_none (by omega)]
      simp [h2]
  · simp [h]

theorem length_foldl_set (v : Nat) (L : List Nat) : ∀ g : List Nat,
    (L.foldl (fun g i => g.set i v) g).length = g.length := by
  induction L with
  | nil => intro g; rfl
  | cons x L ih =>
    intro g
    simp only [List.foldl_cons, ih, List.length_set]

theorem getD_foldl_set (v : Nat) (L : List Nat) : ∀ (g : List Nat) (j : Nat),
    (L.foldl (fun g i => g.set i v) g).getD j 0
      = if j ∈ L ∧ j < g.length then v else g.getD j 0 := by
  induction L with
  | nil => simp
  | cons x L ih =>
    intro g j
    simp only [List.foldl_cons, ih, List.length_set, getD_set_eq, List.mem_cons]
    split_ifs <;> first | rfl | omega | (exfalso; aesop)

end LifeSpec

namespace LifeSpec

/-! ## The committed grid of `next` -/

theorem bornB_iff (m : Model) (i : Nat) :
    m.bornB i = true ↔ m.grid.getD i 0 ≠ m.nextFor i ∧ 0 < m.nextFor i := by
  simp [Model.bornB, Model.liveB]

theorem diedB_iff (m : Model) (i : Nat) :
    m.diedB i = true ↔ m.grid.getD i 0 ≠ m.nextFor i ∧ m.nextFor i = 0 := by
  simp [Model.diedB]

theorem survB_iff (m : Model) (i : Nat) :
    m.survB i = true ↔ m.grid.getD i 0 = m.nextFor i ∧ 0 < m.nextFor i := by
  simp [Model.survB, Model.liveB]

theorem liveB_iff (m : Model) (i : Nat) : m.liveB i = true ↔ 0 < m.nextFor i := by
  simp [Model.liveB]

theorem next_grid_length (m : Model) : (m.next).2.grid.length = m.grid.length := by
  rw [(next_fields m).2.2.2.2.2.2, length_foldl_set, length_foldl_set]

theorem next_grid_getD (m : Model) (j : Nat) :
    (m.next).2.grid.getD j 0
      = if j ∈ m.activeCells.filter m.diedB ∧ j < m.grid.length then 0
        else if j ∈ m.activeCells.filter m.bornB ∧ j < m.grid.length then 1
        else m.grid.getD j 0 := by
  rw [(next_fields m).2.2.2.2.2.2, getD_foldl_set, length_foldl_set, getD_foldl_set]

theorem getD_le_one (m : Model) (h01 : ∀ v ∈ m.grid, v ≤ 1) (i : Nat) :
    m.grid.getD i 0 ≤ 1 := by
  by_cases h : i < m.grid.length
  · rw [List.getD_eq_getElem?_getD, List.getElem?_eq_getElem h]
    exact h01 _ (List.getElem_mem h)
  · rw [List.getD_eq_getElem?_getD, List.getElem?_eq_none (by omega)]
    simp

theorem nextFor_le_one (m : Model) (h01 : ∀ v ∈ m.grid, v ≤ 1) (i : Nat) :
    m.nextFor i ≤ 1 := by
  simp only [Model.nextFor]
  have := getD_le_one m h01 i
  split_ifs <;> omega

/-- On an active cell the committed grid holds exactly the classified next
state. -/
theorem next_getD_eq_nextFor (m : Model) (h01 : ∀ v ∈ m.grid, v ≤ 1)
    {i : Nat} (hi : i ∈ m.activeCells) (hilen : i < m.grid.length) :
    (m.next).2.grid.getD i 0 = m.nextFor i := by
  rw [next_grid_getD]
  by_cases hd : m.diedB i = true
  · rw [if_pos ⟨List.mem_filter.2 ⟨hi, hd⟩, hilen⟩]
    exact ((diedB_iff m i).1 hd).2.symm
  · by_cases hb : m.bornB i = true
    · rw [if_neg (fun hh => hd (List.mem_filter.1 hh.1).2),
        if_pos ⟨List.mem_filter.2 ⟨hi, hb⟩, hilen⟩]
      have h1 := ((bornB_iff m i).1 hb).2
      have h2 := nextFor_le_one m h01 i
      omega
    · rw [if_neg (fun hh => hd (List.mem_filter.1 hh.1).2),
        if_neg (fun hh => hb (List.mem_filter.1 hh.1).2)]
      have h1 : ¬ (m.grid.getD i 0 ≠ m.nextFor i ∧ 0 < m.nextFor i) :=
        fun hh => hb ((bornB_iff m i).2 hh)
      have h2 : ¬ (m.grid.getD i 0 ≠ m.nextFor i ∧ m.nextFor i = 0) :=
        fun hh => hd ((diedB_iff m i).2 hh)
      omega

/-- Outside the active region the commit loops never touch the grid. -/
theorem next_getD_of_not_active (m : Model) {j : Nat} (hj : j ∉ m.activeCells) :
    (m.next).2.grid.getD j 0 = m.grid.getD j 0 := by
  rw [next_grid_getD,
    if_neg (fun hh => hj (List.mem_filter.1 hh.1).1),
    if_neg (fun hh => hj (List.mem_filter.1 hh.1).1)]

/-- An inactive cell is dead and has only dead neighbors (using toroidal
neighborhood symmetry), so the rule keeps it dead. -/
theorem nextFor_of_inactive (m : Model) (hc : 0 < m.cols) (hr : 0 < m.rows)
    (hlen : m.grid.length = m.cols * m.rows) (h01 : ∀ v ∈ m.grid, v ≤ 1)
    (hAlive : ∀ i, i < m.grid.length → (i ∈ m.alive ↔ m.grid.getD i 0 = 1))
    {i : Nat} (hilen : i < m.grid.length) (hna : i ∉ m.activeCells) :
    m.nextFor i = m.grid.getD i 0 := by
  have hdead : m.grid.getD i 0 = 0 := by
    have h1 : i ∉ m.alive := fun h => hna ((mem_activeCells m i).2 (Or.inl h))
    have h2 := getD_le_one m h01 i
    have h3 : m.grid.getD i 0 ≠ 1 := fun h => h1 ((hAlive i hilen).2 h)
    omega
  have hnb : ∀ j ∈ m.neighborsOf i, m.grid.getD j 0 = 0 := by
    intro j hj
    by_contra hne
    have h2 := getD_le_one m h01 j
    have hj1 : m.grid.getD j 0 = 1 := by omega
    have hjlt : j < m.cols * m.rows := mem_neighborsOf_lt m hc hr i j hj
    have hjalive : j ∈ m.alive := (hAlive j (by omega)).2 hj1
    have hsym : i ∈ m.neighborsOf j :=
      mem_neighborsOf_symm m hc hr (by omega) hj
    exact hna ((mem_activeCells m i).2 (Or.inr ⟨j, hjalive, hsym⟩))
  have hsum : ((m.neighborsOf i).map (fun j => m.grid.getD j 0)).sum = 0 := by
    apply List.sum_eq_zero
    intro x hx
    rcases List.mem_map.1 hx with ⟨j, hj, rfl⟩
    exact hnb j hj
  simp only [Model.nextFor]
  rw [hsum, if_neg (by omega), if_neg (by omega)]
  exact hdead.symm

theorem conwaySync_length (m : Model) : (conwaySync m).length = m.grid.length := by
  simp [conwaySync]

theorem conwaySync_getD (m : Model) {i : Nat} (hi : i < m.grid.length) :
    (conwaySync m).getD i 0 = m.nextFor i := by
  unfold conwaySync
  rw [List.getD_eq_getElem?_getD, List.getElem?_map, List.getElem?_range hi]
  rfl

theorem ext_of_getD {l₁ l₂ : List Nat} (hlen : l₁.length = l₂.length)
    (h : ∀ i, i < l₁.length → l₁.getD i 0 = l₂.getD i 0) : l₁ = l₂ := by
  apply List.ext_getElem hlen
  intro i h1 h2
  have hh := h i h1
  rw [List.getD_eq_getElem?_getD, List.getD_eq_getElem?_getD,
    List.getElem?_eq_getElem h1, List.getElem?_eq_getElem h2] at hh
  simpa using hh

end LifeSpec

namespace LifeSpec

/-! ## Claim theorems: the generation step -/

theorem activeCells_lt (m : Model) (hc : 0 < m.cols) (hr : 0 < m.rows)
    (hlen : m.grid.length = m.cols * m.rows)
    (halive : ∀ a ∈ m.alive, a < m.grid.length) :
    ∀ i ∈ m.activeCells, i < m.grid.length := by
  intro i hi
  rcases (mem_activeCells m i).1 hi with h | ⟨a, _, hn⟩
  · exact halive i h
  · have := mem_neighborsOf_lt m hc hr a i hn
    omega

/-- On an active (in-range) cell, the committed state is live exactly when
the classified next state is live. -/
theorem next_getD_pos_iff (m : Model) {i : Nat} (hi : i ∈ m.activeCells)
    (hilen : i < m.grid.length) :
    (0 < (m.next).2.grid.getD i 0 ↔ 0 < m.nextFor i) := by
  rw [next_grid_getD]
  by_cases hd : m.diedB i = true
  · rw [if_pos ⟨List.mem_filter.2 ⟨hi, hd⟩, hilen⟩]
    have := ((diedB_iff m i).1 hd).2
    omega
  · by_cases hb : m.bornB i = true
    · rw [if_neg (fun hh => hd (List.mem_filter.1 hh.1).2),
        if_pos ⟨List.mem_filter.2 ⟨hi, hb⟩, hilen⟩]
      have := ((bornB_iff m i).1 hb).2
      omega
    · rw [if_neg (fun hh => hd (List.mem_filter.1 hh.1).2),
        if_neg (fun hh => hb (List.mem_filter.1 hh.1).2)]
      have h1 : ¬ (m.grid.getD i 0 ≠ m.nextFor i ∧ 0 < m.nextFor i) :=
        fun hh => hb ((bornB_iff m i).2 hh)
      have h2 : ¬ (m.grid.getD i 0 ≠ m.nextFor i ∧ m.nextFor i = 0) :=
        fun hh => hd ((diedB_iff m i).2 hh)
      omega

/-- C1: for every engine state in which the Live-Set equals the set of grid
indices holding 1 (and the grid is well-formed), `next()` advances the grid
by exactly one synchronous generation of Conway's rule on the toroidal
grid; and, in particular, a 3-cell horizontal blinker on a 5×5 grid
returns to a bit-identical grid after two `next()` calls. -/
theorem next_advances_one_conway_generation :
    (∀ m : Model, 0 < m.cols → 0 < m.rows → m.grid.length = m.cols * m.rows →
        (∀ v ∈ m.grid, v ≤ 1) →
        (∀ i, i < m.grid.length → (i ∈ m.alive ↔ m.grid.getD i 0 = 1)) →
        (∀ a ∈ m.alive, a < m.grid.length) →
        (m.next).2.grid = conwaySync m) ∧
      (((((Model.new 5 5).init
          [0,0,0,0,0, 0,0,0,0,0, 0,1,1,1,0, 0,0,0,0,0, 0,0,0,0,0]).2.next).2.next).2.grid
        = ((Model.new 5 5).init
          [0,0,0,0,0, 0,0,0,0,0, 0,1,1,1,0, 0,0,0,0,0, 0,0,0,0,0]).2.grid) := by
  constructor
  · intro m hc hr hlen h01 hAlive _
    apply ext_of_getD
    · rw [next_grid_length, conwaySync_length]
    · intro i hI
      have hI' : i < m.grid.length := by rwa [next_grid_length] at hI
      rw [conwaySync_getD m hI']
      by_cases hact : i ∈ m.activeCells
      · exact next_getD_eq_nextFor m h01 hact hI'
      · rw [next_getD_of_not_active m hact]
        exact (nextFor_of_inactive m hc hr hlen h01 hAlive hI' hact).symm
  · decide

/-- Witness for C1 at the blinker state: one `next()` equals the
synchronous Conway step of the claim. -/
theorem next_advances_one_conway_generation_witness :
    ((((Model.new 5 5).init
        [0,0,0,0,0, 0,0,0,0,0, 0,1,1,1,0, 0,0,0,0,0, 0,0,0,0,0]).2).next).2.grid
      = conwaySync (((Model.new 5 5).init
        [0,0,0,0,0, 0,0,0,0,0, 0,1,1,1,0, 0,0,0,0,0, 0,0,0,0,0]).2) :=
  next_advances_one_conway_generation.1 _ (by decide) (by decide) (by decide)
    (by decide) (by decide) (by decide)

/-- C7: the cells reported changed by one `next()` call (`born ∪ died`)
always lie in the pre-call Active Region (the Live-Set together with the
8 toroidal neighbors of each live cell), and the grid is unchanged at
every cell outside that region. -/
theorem changed_cells_in_active_region :
    (∀ (m : Model) (i : Nat), i ∈ (m.next).1.born ∨ i ∈ (m.next).1.died →
        i ∈ m.alive ∨ ∃ a ∈ m.alive, i ∈ m.neighborsOf a) ∧
      ∀ (m : Model) (j : Nat), ¬ (j ∈ m.alive ∨ ∃ a ∈ m.alive, j ∈ m.neighborsOf a) →
        (m.next).2.grid.getD j 0 = m.grid.getD j 0 := by
  constructor
  · intro m i hi
    have hfields := next_fields m
    apply (mem_activeCells m i).1
    rcases hi with hb | hd
    · rw [hfields.1] at hb
      exact (List.mem_filter.1 hb).1
    · rw [hfields.2.1] at hd
      exact (List.mem_filter.1 hd).1
  · intro m j hj
    exact next_getD_of_not_active m (fun h => hj ((mem_activeCells m j).1 h))

/-- Witness for C7: on the blinker board, the corner cell 0 lies outside
the active region and is untouched by `next()`. -/
theorem changed_cells_in_active_region_witness :
    ((((Model.new 5 5).init
        [0,0,0,0,0, 0,0,0,0,0, 0,1,1,1,0, 0,0,0,0,0, 0,0,0,0,0]).2).next).2.grid.getD 0 0
      = (((Model.new 5 5).init
        [0,0,0,0,0, 0,0,0,0,0, 0,1,1,1,0, 0,0,0,0,0, 0,0,0,0,0]).2).grid.getD 0 0 :=
  changed_cells_in_active_region.2 _ 0 (by decide)

end LifeSpec

namespace LifeSpec

/-- C6 counterexample: on a 3×3 board with a single live cell at index 4,
`next()` reports `died = [4]` — cell 4 is in the union of the reported
sequences and in the Active Region, yet it is neither alive-after nor
alive-before-and-still-alive (its after-state is 0), so the union is not
the set the claim describes. -/
theorem reported_union_counterexample :
    4 ∈ ((((Model.new 3 3).init [0,0,0, 0,1,0, 0,0,0]).2).next).1.died ∧
      4 ∈ (((Model.new 3 3).init [0,0,0, 0,1,0, 0,0,0]).2).activeCells ∧
      ((((Model.new 3 3).init [0,0,0, 0,1,0, 0,0,0]).2).next).2.grid.getD 4 0 = 0 := by
  refine ⟨by decide, by decide, by decide⟩

/-- C6 (amended): within one Change-Set, `born`, `died` and `survived` are
pairwise disjoint, and their union equals exactly the set of cells of the
Active Region whose state is alive-before or alive-after (the claim's
description omits the `died` cells, which are alive-before only). -/
theorem changes_partition (m : Model) (hc : 0 < m.cols) (hr : 0 < m.rows)
    (hlen : m.grid.length = m.cols * m.rows)
    (halive : ∀ a ∈ m.alive, a < m.grid.length) :
    ((m.next).1.born.Disjoint (m.next).1.died ∧
      (m.next).1.born.Disjoint (m.next).1.survived ∧
      (m.next).1.died.Disjoint (m.next).1.survived) ∧
    ∀ i, (i ∈ (m.next).1.born ∨ i ∈ (m.next).1.died ∨ i ∈ (m.next).1.survived)
      ↔ i ∈ m.activeCells ∧ (0 < m.grid.getD i 0 ∨ 0 < (m.next).2.grid.getD i 0) := by
  have hf := next_fields m
  constructor
  · refine ⟨?_, ?_, ?_⟩
    · intro a ha hb
      rw [hf.1] at ha
      rw [hf.2.1] at hb
      have h1 := (bornB_iff m a).1 (List.mem_filter.1 ha).2
      have h2 := (diedB_iff m a).1 (List.mem_filter.1 hb).2
      omega
    · intro a ha hb
      rw [hf.1] at ha
      rw [hf.2.2.1] at hb
      have h1 := (bornB_iff m a).1 (List.mem_filter.1 ha).2
      have h2 := (survB_iff m a).1 (List.mem_filter.1 hb).2
      omega
    · intro a ha hb
      rw [hf.2.1] at ha
      rw [hf.2.2.1] at hb
      have h1 := (diedB_iff m a).1 (List.mem_filter.1 ha).2
      have h2 := (survB_iff m a).1 (List.mem_filter.1 hb).2
      omega
  · intro i
    constructor
    · rintro (h | h | h)
      · rw [hf.1] at h
        obtain ⟨hact, hcond⟩ := List.mem_filter.1 h
        have hc1 := (bornB_iff m i).1 hcond
        have hlt := activeCells_lt m hc hr hlen halive i hact
        exact ⟨hact, Or.inr ((next_getD_pos_iff m hact hlt).2 hc1.2)⟩
      · rw [hf.2.1] at h
        obtain ⟨hact, hcond⟩ := List.mem_filter.1 h
        have hc1 := (diedB_iff m i).1 hcond
        exact ⟨hact, Or.inl (by omega)⟩
      · rw [hf.2.2.1] at h
        obtain ⟨hact, hcond⟩ := List.mem_filter.1 h
        have hc1 := (survB_iff m i).1 hcond
        exact ⟨hact, Or.inl (by omega)⟩
    · rintro ⟨hact, hor⟩
      have hlt := activeCells_lt m hc hr hlen halive i hact
      have hpos := next_getD_pos_iff m hact hlt
      have hor' : 0 < m.grid.getD i 0 ∨ 0 < m.nextFor i := by
        rcases hor with h | h
        · exact Or.inl h
        · exact Or.inr (hpos.1 h)
      by_cases h1 : m.grid.getD i 0 = m.nextFor i
      · refine Or.inr (Or.inr ?_)
        rw [hf.2.2.1]
        exact List.mem_filter.2 ⟨hact, (survB_iff m i).2 ⟨h1, by omega⟩⟩
      · by_cases h2 : 0 < m.nextFor i
        · refine Or.inl ?_
          rw [hf.1]
          exact List.mem_filter.2 ⟨hact, (bornB_iff m i).2 ⟨h1, h2⟩⟩
        · refine Or.inr (Or.inl ?_)
          rw [hf.2.1]
          exact List.mem_filter.2 ⟨hact, (diedB_iff m i).2 ⟨h1, by omega⟩⟩

/-- Witness for the amended C6 at the single-cell board and the dying
cell 4. -/
theorem changes_partition_witness :
    (4 ∈ ((((Model.new 3 3).init [0,0,0, 0,1,0, 0,0,0]).2).next).1.born ∨
        4 ∈ ((((Model.new 3 3).init [0,0,0, 0,1,0, 0,0,0]).2).next).1.died ∨
        4 ∈ ((((Model.new 3 3).init [0,0,0, 0,1,0, 0,0,0]).2).next).1.survived)
      ↔ 4 ∈ (((Model.new 3 3).init [0,0,0, 0,1,0, 0,0,0]).2).activeCells ∧
          (0 < (((Model.new 3 3).init [0,0,0, 0,1,0, 0,0,0]).2).grid.getD 4 0 ∨
            0 < ((((Model.new 3 3).init [0,0,0, 0,1,0, 0,0,0]).2).next).2.grid.getD 4 0) :=
  (changes_partition (((Model.new 3 3).init [0,0,0, 0,1,0, 0,0,0]).2)
    (by decide) (by decide) (by decide) (by decide)).2 4

end LifeSpec

namespace LifeSpec

/-! ## Initialization -/

theorem lowBit_le_one (v : Int) : lowBit v ≤ 1 := by
  unfold lowBit
  have h1 : 0 ≤ v % 2 := Int.emod_nonneg v (by omega)
  have h2 : v % 2 < 2 := Int.emod_lt_of_pos v (by omega)
  omega

theorem initGo_length : ∀ (vs : List Int) (g a : List Nat) (i : Nat),
    (initGo g a i vs).1.length = g.length := by
  intro vs
  induction vs with
  | nil => intro g a i; rfl
  | cons v vs ih =>
    intro g a i
    simp only [initGo, ih, List.length_set]

theorem initGo_alive_mem : ∀ (vs : List Int) (g a : List Nat) (i j : Nat),
    j ∈ (initGo g a i vs).2
      ↔ j ∈ a ∨ (i ≤ j ∧ j - i < vs.length ∧ 0 < lowBit (vs.getD (j - i) 0)) := by
  intro vs
  induction vs with
  | nil => simp [initGo]
  | cons v vs ih =>
    intro g a i j
    simp only [initGo]
    rw [ih]
    by_cases hv : 0 < lowBit v
    · rw [if_pos hv]
      simp only [List.mem_append, List.mem_singleton, List.length_cons]
      constructor
      · rintro ((hja | rfl) | ⟨h1, h2, h3⟩)
        · exact Or.inl hja
        · refine Or.inr ⟨Nat.le_refl j, by omega, ?_⟩
          rw [Nat.sub_self]
          simpa using hv
        · refine Or.inr ⟨by omega, by omega, ?_⟩
          have he : j - i = (j - (i + 1)) + 1 := by omega
          rw [he, List.getD_cons_succ]
          exact h3
      · rintro (hja | ⟨h1, h2, h3⟩)
        · exact Or.inl (Or.inl hja)
        · by_cases hji : j = i
          · exact Or.inl (Or.inr hji)
          · refine Or.inr ⟨by omega, by omega, ?_⟩
            have he : j - (i + 1) = (j - i) - 1 := by omega
            have he2 : j - i = ((j - i) - 1) + 1 := by omega
            rw [he2, List.getD_cons_succ] at h3
            rw [he]
            exact h3
    · rw [if_neg hv]
      constructor
      · rintro (hja | ⟨h1, h2, h3⟩)
        · exact Or.inl hja
        · refine Or.inr ⟨by omega, by simp only [List.length_cons]; omega, ?_⟩
          have he : j - i = (j - (i + 1)) + 1 := by omega
          rw [he, List.getD_cons_succ]
          exact h3
      · rintro (hja | ⟨h1, h2, h3⟩)
        · exact Or.inl hja
        · by_cases hji : j = i
          · subst hji
            rw [Nat.sub_self] at h3
            simp at h3
            omega
          · refine Or.inr ⟨by omega, ?_, ?_⟩
            · simp only [List.length_cons] at h2
              omega
            · have he : j - (i + 1) = (j - i) - 1 := by omega
              have he2 : j - i = ((j - i) - 1) + 1 := by omega
              rw [he2, List.getD_cons_succ] at h3
              rw [he]
              exact h3

theorem initGo_grid_getD : ∀ (vs : List Int) (g a : List Nat) (i j : Nat),
    (initGo g a i vs).1.getD j 0
      = if i ≤ j ∧ j - i < vs.length ∧ j < g.length then lowBit (vs.getD (j - i) 0)
        else g.getD j 0 := by
  intro vs
  induction vs with
  | nil => simp [initGo]
  | cons v vs ih =>
    intro g a i j
    simp only [initGo]
    rw [ih, List.length_set, getD_set_eq]
    by_cases hji : j = i
    · subst hji
      by_cases hlen : j < g.length
      · by_cases htail : j + 1 ≤ j ∧ j - (j + 1) < vs.length ∧ j < g.length
        · omega
        · rw [if_neg htail, if_pos ⟨rfl, hlen⟩,
            if_pos ⟨Nat.le_refl j, by simp only [List.length_cons]; omega, hlen⟩,
            Nat.sub_self]
          simp
      · rw [if_neg (by omega : ¬ (j + 1 ≤ j ∧ j - (j + 1) < vs.length ∧ j < g.length)),
          if_neg (fun hh : j = j ∧ j < g.length => hlen hh.2)]
        exact (if_neg (fun hh => hlen hh.2.2)).symm
    · rw [if_neg (fun hh : i = j ∧ i < g.length => hji hh.1.symm)]
      by_cases hcond : i + 1 ≤ j ∧ j - (i + 1) < vs.length ∧ j < g.length
      · rw [if_pos hcond,
          if_pos ⟨by omega, by simp only [List.length_cons]; omega, hcond.2.2⟩]
        have he : j - i = (j - (i + 1)) + 1 := by omega
        rw [he, List.getD_cons_succ]
      · rw [if_neg hcond, if_neg ?_]
        intro hh
        obtain ⟨h1, h2, h3⟩ := hh
        simp only [List.length_cons] at h2
        exact hcond ⟨by omega, by omega, h3⟩

theorem getD_map_lowBit (vals : List Int) (j : Nat) :
    (vals.map lowBit).getD j 0 = lowBit (vals.getD j 0) := by
  by_cases h : j < vals.length
  · rw [List.getD_eq_getElem?_getD, List.getD_eq_getElem?_getD, List.getElem?_map,
      List.getElem?_eq_getElem h]
    rfl
  · rw [List.getD_eq_getElem?_getD, List.getD_eq_getElem?_getD]
    rw [List.getElem?_eq_none (show vals.length ≤ j by omega)]
    rw [List.getElem?_eq_none (show (List.map lowBit vals).length ≤ j by
      simp only [List.length_map]; omega)]
    decide

end LifeSpec

namespace LifeSpec

/-! ## Claim theorems: initialization -/

/-- C3 counterexample: `init` pushes onto the existing `alive` array
without clearing it, so a second `init` on an engine with live cells is
not a clean reset: after `init [1,0]` then `init [0,1]` on a 2×1 board,
the grid is fully overwritten to `[0,1]` but the Live-Set (and the
returned `born`) is `[0,1]`, which still contains the stale index 0 whose
stored value is no longer 1. -/
theorem init_reinit_counterexample :
    ((((Model.new 2 1).init [1, 0]).2).init [0, 1]).2.grid = [0, 1] ∧
      ((((Model.new 2 1).init [1, 0]).2).init [0, 1]).1.born = [0, 1] ∧
      0 ∈ ((((Model.new 2 1).init [1, 0]).2).init [0, 1]).2.alive ∧
      ((((Model.new 2 1).init [1, 0]).2).init [0, 1]).2.grid.getD 0 0 ≠ 1 := by
  refine ⟨by decide, by decide, by decide, by decide⟩

/-- C3 (amended): on an engine whose Live-Set is empty — in particular a
freshly constructed engine — `init(values)` with `values.length = size`
fully overwrites the grid with the low bit of each value, leaves the
Live-Set equal to exactly the indices whose stored value is 1, and
returns (and hands to `didChange.raise`) a Change-Set whose `born` is that
Live-Set with `died` and `survived` empty.  (A second `init` on an engine
that has live cells appends to the stale Live-Set instead; see the
counterexample.) -/
theorem init_fresh_resets (m : Model) (vals : List Int) (hempty : m.alive = [])
    (hlen : vals.length = m.grid.length) :
    (m.init vals).2.grid = vals.map lowBit ∧
      (m.init vals).1.born = (m.init vals).2.alive ∧
      (m.init vals).1.died = [] ∧
      (m.init vals).1.survived = [] ∧
      ∀ i, i ∈ (m.init vals).2.alive ↔ (m.init vals).2.grid.getD i 0 = 1 := by
  have hgrid : (m.init vals).2.grid = vals.map lowBit := by
    simp only [Model.init]
    apply ext_of_getD
    · rw [initGo_length, List.length_map]
      omega
    · intro j hj
      rw [initGo_length] at hj
      rw [initGo_grid_getD, if_pos ⟨Nat.zero_le j, by omega, hj⟩, Nat.sub_zero,
        getD_map_lowBit]
  refine ⟨hgrid, rfl, rfl, rfl, ?_⟩
  intro i
  rw [hgrid, getD_map_lowBit]
  show i ∈ (initGo m.grid m.alive 0 vals).2 ↔ _
  rw [initGo_alive_mem, hempty]
  simp only [List.not_mem_nil, false_or, Nat.zero_le, true_and, Nat.sub_zero]
  constructor
  · rintro ⟨_, h2⟩
    have := lowBit_le_one (vals.getD i 0)
    omega
  · intro h
    by_cases hi : i < vals.length
    · exact ⟨hi, by omega⟩
    · exfalso
      rw [List.getD_eq_getElem?_getD, List.getElem?_eq_none (by omega)] at h
      simp only [Option.getD_none] at h
      exact absurd h (by decide)

/-- Witness for the amended C3 on a fresh 2×2 engine. -/
theorem init_fresh_resets_witness :
    ((Model.new 2 2).init [1, 0, 0, 1]).2.grid = ([1, 0, 0, 1] : List Int).map lowBit ∧
      (3 ∈ ((Model.new 2 2).init [1, 0, 0, 1]).2.alive ↔
        ((Model.new 2 2).init [1, 0, 0, 1]).2.grid.getD 3 0 = 1) :=
  ⟨(init_fresh_resets (Model.new 2 2) [1, 0, 0, 1] (by decide) (by decide)).1,
   (init_fresh_resets (Model.new 2 2) [1, 0, 0, 1] (by decide) (by decide)).2.2.2.2 3⟩

/-- C4 counterexample: `init` has no shape validation at all.  On a 2×1
engine, `init [1]` (length 1 ≠ 2 = cols*rows) is not rejected: the grid is
mutated to `[1, 0]` and a change set `born = [0]` is produced and
broadcast. -/
theorem init_shape_mismatch_counterexample :
    ([1] : List Int).length ≠ (Model.new 2 1).cols * (Model.new 2 1).rows ∧
      ((Model.new 2 1).init [1]).2.grid = [1, 0] ∧
      ((Model.new 2 1).init [1]).2.grid ≠ (Model.new 2 1).grid ∧
      ((Model.new 2 1).init [1]).1.born = [0] := by
  refine ⟨by decide, by decide, by decide, by decide⟩

/-- C4 (amended): `init` performs no length validation.  Whatever the
length of `values`, it writes the low bit of `values[j]` to grid position
`j` for every `j < values.length` (writes beyond the grid are discarded by
the typed array), leaves all other cells unchanged, and never rejects the
request; a short `values` therefore leaves a partially-updated grid.  The
grid's size is unchanged. -/
theorem init_writes_prefix (m : Model) (vals : List Int) (j : Nat) :
    (m.init vals).2.grid.getD j 0
      = (if j < vals.length ∧ j < m.grid.length then lowBit (vals.getD j 0)
         else m.grid.getD j 0) ∧
      (m.init vals).2.grid.length = m.grid.length := by
  constructor
  · show (initGo m.grid m.alive 0 vals).1.getD j 0 = _
    rw [initGo_grid_getD]
    by_cases h : j < vals.length ∧ j < m.grid.length
    · rw [if_pos ⟨Nat.zero_le j, by omega, h.2⟩, if_pos h, Nat.sub_zero]
    · rw [if_neg (by omega), if_neg h]
  · show (initGo m.grid m.alive 0 vals).1.length = _
    exact initGo_length vals m.grid m.alive 0

end LifeSpec

namespace LifeSpec

/-! ## Claim theorems: host batching, point queries -/

theorem needSome_length : ∀ (n : Nat) (m : Model), (needSome m n).1.length = n := by
  intro n
  induction n with
  | zero => intro m; rfl
  | succ k ih =>
    intro m
    simp only [needSome, List.length_cons, ih]

theorem needSome_add (a : Nat) : ∀ (b : Nat) (m : Model),
    needSome m (a + b)
      = ((needSome m a).1 ++ (needSome (needSome m a).2 b).1,
         (needSome (needSome m a).2 b).2) := by
  induction a with
  | zero => intro b m; simp [needSome]
  | succ k ih =>
    intro b m
    have he : k + 1 + b = (k + b) + 1 := by omega
    rw [he]
    simp only [needSome, ih, List.cons_append]

/-- C8: a `NeedSome{n}` request computes exactly `n` change sets, in
generation order, in one response, and `NeedSome{5}` produces the same
five change sets in the same order — and the same final engine state — as
five sequential `NeedSome{1}` requests. -/
theorem batch_equivalence :
    (∀ (m : Model) (n : Nat), (needSome m n).1.length = n) ∧
      ∀ m : Model,
        (needSome m 5).1
            = (needSome m 1).1 ++ (needSome (needSome m 1).2 1).1
              ++ (needSome (needSome (needSome m 1).2 1).2 1).1
              ++ (needSome (needSome (needSome (needSome m 1).2 1).2 1).2 1).1
              ++ (needSome (needSome (needSome (needSome (needSome m 1).2 1).2 1).2 1).2 1).1
          ∧ (needSome m 5).2
            = (needSome (needSome (needSome (needSome (needSome m 1).2 1).2 1).2 1).2 1).2 := by
  refine ⟨fun m n => needSome_length n m, fun m => ?_⟩
  have h5 : (5 : Nat) = 1 + (1 + (1 + (1 + 1))) := by omega
  rw [h5, needSome_add, needSome_add, needSome_add, needSome_add]
  simp [List.append_assoc]

/-- C10: `get(index)` for any index outside `[0, size)` evaluates
`grid[index] > 0` with an `undefined` read and returns `false`; `get` is a
pure function of the state (the embedding's `Model.get` takes and returns
no state), so no engine state changes. -/
theorem get_out_of_range (m : Model) (index : Int)
    (h : index < 0 ∨ (m.grid.length : Int) ≤ index) : m.get index = false := by
  have hnone : m.gridVal index = none := by
    simp only [Model.gridVal]
    rw [if_neg (by omega)]
  simp only [Model.get, hnone]

/-- Witness for C10 at two concrete out-of-range indices. -/
theorem get_out_of_range_witness :
    (Model.new 2 2).get (-1) = false ∧ (Model.new 2 2).get 4 = false :=
  ⟨get_out_of_range (Model.new 2 2) (-1) (by decide),
   get_out_of_range (Model.new 2 2) 4 (by decide)⟩

end LifeSpec

namespace LifeSpec

/-! ## Claim theorems: the Signal -/

theorem lookup_applyOp {L : Type} [DecidableEq L] (s : SignalH L) (op : SigOp L)
    {a : Nat} (ha : a < s.heap.length) :
    (s.applyOp op).heap.getD a [] = s.heap.getD a []
      ∧ s.heap.length ≤ (s.applyOp op).heap.length := by
  have happ : ∀ tail : List L, ((s.heap ++ [tail]).getD a [] = s.heap.getD a []) := by
    intro tail
    rw [List.getD_eq_getElem?_getD, List.getD_eq_getElem?_getD,
      List.getElem?_append_left ha]
  cases op with
  | tap l =>
    exact ⟨happ _, by simp [SignalH.applyOp, SignalH.tap]⟩
  | untap l =>
    simp only [SignalH.applyOp, SignalH.untap]
    cases hfind : (s.heap.getD s.cur []).indexOf? l with
    | none => exact ⟨rfl, Nat.le_refl _⟩
    | some ix => exact ⟨happ _, by simp⟩

theorem lookup_applyOps {L : Type} [DecidableEq L] (ops : List (SigOp L)) :
    ∀ (s : SignalH L) (a : Nat), a < s.heap.length →
      (s.applyOps ops).heap.getD a [] = s.heap.getD a []
        ∧ s.heap.length ≤ (s.applyOps ops).heap.length := by
  induction ops with
  | nil => exact fun s a _ => ⟨rfl, Nat.le_refl _⟩
  | cons op ops ih =>
    intro s a ha
    have h1 := lookup_applyOp s op ha
    have h2 := ih (s.applyOp op) a (by omega)
    simp only [SignalH.applyOps, List.foldl_cons] at h2 ⊢
    exact ⟨h2.1.trans h1.1, Nat.le_trans h1.2 h2.2⟩

theorem raiseGo_spec {L A : Type} [DecidableEq L] (eff : L → A → List (SigOp L))
    (args : A) (a0 : Nat) (arr0 : List L) :
    ∀ (rem i : Nat) (s : SignalH L), a0 < s.heap.length →
      s.heap.getD a0 [] = arr0 → rem + i = arr0.length →
      (raiseGo eff args a0 i rem s).1 = (arr0.drop i).map (fun l => (l, args)) := by
  intro rem
  induction rem with
  | zero =>
    intro i s _ _ h3
    have : i = arr0.length := by omega
    subst this
    simp [raiseGo]
  | succ rem ih =>
    intro i s h1 h2 h3
    simp only [raiseGo]
    rw [h2]
    have hi : i < arr0.length := by omega
    rw [dif_pos hi]
    have hmono := lookup_applyOps (eff (arr0.get ⟨i, hi⟩) args) s a0 h1
    have hrec := ih (i + 1) (s.applyOps (eff (arr0.get ⟨i, hi⟩) args))
      (by omega) (hmono.1.trans h2) (by omega)
    rw [hrec, List.drop_eq_getElem_cons hi, List.map_cons]
    simp [List.get_eq_getElem]

/-- C9: `raise` invokes exactly the listeners registered at the moment the
raise started, synchronously in registration order, passing all arguments
through; the mutations `eff` that the invoked listeners perform (any
sequence of `tap`/`untap`, which always copy the array before modifying
it) cannot change the set of listeners this raise invokes. -/
theorem raise_invokes_snapshot {L A : Type} [DecidableEq L] (s : SignalH L)
    (eff : L → A → List (SigOp L)) (args : A) (h : s.cur < s.heap.length) :
    (s.raise eff args).1 = (s.heap.getD s.cur []).map (fun l => (l, args)) := by
  unfold SignalH.raise
  exact raiseGo_spec eff args s.cur (s.heap.getD s.cur []) _ 0 s h rfl (by omega)

/-- Witness for C9: a raise over listeners `[1, 2]` during which every
listener taps a new listener and untaps listener 2 still invokes exactly
`[1, 2]`, each receiving the raise argument 7. -/
theorem raise_invokes_snapshot_witness :
    ((⟨[[1, 2]], 0⟩ : SignalH Nat).raise
        (fun l _ => [SigOp.tap (l + 10), SigOp.untap 2]) 7).1
      = (([[1, 2]] : List (List Nat)).getD 0 []).map (fun l => (l, 7)) :=
  raise_invokes_snapshot ⟨[[1, 2]], 0⟩
    (fun l _ => [SigOp.tap (l + 10), SigOp.untap 2]) 7 (by decide)

end LifeSpec

namespace LifeSpec

/-! ## Claim theorems: the proxy and stale batches -/

/-- C2 (evaluating the code at the failing scenario): `ModelInWorker` has
no epoch field at all.  A `HereSome` batch computed for the pre-reset
configuration that arrives right after `randomize()` is appended to the
buffer behind the synthetic wipe delta exactly like current data — not
dropped — and two `next()` calls later it is raised to `didChange`
listeners. -/
theorem stale_batch_not_dropped :
    (((Proxy.create 2 2 [0, 0, 0, 0]).randomize [1, 0, 0, 0]).onHereSome
        [(⟨[3], [], []⟩ : Changes)]).changes
      = [(⟨[], [], []⟩ : Changes), (⟨[3], [], []⟩ : Changes)] ∧
      (⟨[3], [], []⟩ : Changes) ∈
        ((((Proxy.create 2 2 [0, 0, 0, 0]).randomize [1, 0, 0, 0]).onHereSome
          [(⟨[3], [], []⟩ : Changes)]).next.next).raised := by
  refine ⟨by decide, by decide⟩

end LifeSpec
